import Mathlib

/-!
Verification of the render-resource allocation core of the PyGL3Display
repository (picaresque).  The Python classes are shallowly embedded as pure
Lean functions on explicit state values:

* `Slices` (slices.py)            — the number-line allocator;
* `GL3Client.getRenderSlots`, `uploadSlotData`, `clean`
  (infrastructure.py)            — draw-index bookkeeping;
* the dynamic-VBO attribute setters (shaderdata.py);
* `TextureAtlas2d.getBox` / `deallocateImage`
  (twodspriteinfrastructure.py)  — the texture-atlas packer.

Python integers in these components stay non-negative except in the texture
atlas, where `Int` is used; Python in-place mutation becomes explicit state
passing, and a raised exception becomes an `Option`/`Except` failure carrying
the state the object had when the exception propagated.
-/

namespace Picaresque

/-- State of a `Slices` object (slices.py).  `slices` is the Python list of
`[start, end]` free ranges; `allocating` and `foundIdx` model the
`self.allocating` / `self.foundSlice` fields (the found slice is recorded by
its index in the list, which agrees with the Python object reference in every
call pattern analysed here: nothing reorders the list between a successful
`canAllocate` and the `allocate` that consumes it). -/
structure Slices where
  slices : List (Nat × Nat)
  allocating : Option Nat
  foundIdx : Option Nat
deriving DecidableEq, Repr

/-- `Slices.__init__(start, end)`. -/
def Slices.init (start stop : Nat) : Slices :=
  ⟨[(start, stop)], none, none⟩

/-- Index of the first free range satisfying `slice[1] - slice[0] > n`
(the scan loop shared by both passes of `canAllocate`). -/
def firstFit (n : Nat) : List (Nat × Nat) → Option Nat
  | [] => none
  | p :: rest => if n < p.2 - p.1 then some 0 else (firstFit n rest).map (· + 1)

/-- Python list comparison on `[a, b]` pairs: lexicographic order. -/
def pairLe (p q : Nat × Nat) : Prop :=
  p.1 < q.1 ∨ (p.1 = q.1 ∧ p.2 ≤ q.2)

instance : DecidableRel pairLe := fun p q =>
  inferInstanceAs (Decidable (p.1 < q.1 ∨ (p.1 = q.1 ∧ p.2 ≤ q.2)))

instance : IsTotal (Nat × Nat) pairLe where
  total p q := by
    rcases Nat.lt_trichotomy p.1 q.1 with h | h | h
    · exact Or.inl (Or.inl h)
    · rcases Nat.le_total p.2 q.2 with h2 | h2
      · exact Or.inl (Or.inr ⟨h, h2⟩)
      · exact Or.inr (Or.inr ⟨h.symm, h2⟩)
    · exact Or.inr (Or.inl h)

instance : IsTrans (Nat × Nat) pairLe where
  trans p q r hpq hqr := by
    rcases hpq with h | ⟨e, h2⟩
    · rcases hqr with h' | ⟨e', _⟩
      · exact Or.inl (h.trans h')
      · exact Or.inl (e' ▸ h)
    · rcases hqr with h' | ⟨e', h2'⟩
      · exact Or.inl (e ▸ h')
      · exact Or.inr ⟨e.trans e', h2.trans h2'⟩

instance : IsAntisymm (Nat × Nat) pairLe where
  antisymm p q hpq hqp := by
    rcases hpq with h | ⟨e, h2⟩
    · rcases hqp with h' | ⟨e', _⟩
      · exact absurd (h.trans h') (lt_irrefl _)
      · exact absurd h (e' ▸ lt_irrefl _)
    · rcases hqp with h' | ⟨e', h2'⟩
      · exact absurd h' (e ▸ lt_irrefl _)
      · exact Prod.ext e (le_antisymm h2 h2')

/-- One pass of the merge phase of `Slices.join`, carrying the range currently
being extended: fuse `p` with the next range whenever `p`'s end equals its
start (the body of the `while` loop over the sorted list). -/
def mergeAdjGo (p : Nat × Nat) : List (Nat × Nat) → List (Nat × Nat)
  | [] => [p]
  | q :: rest =>
    if p.2 = q.1 then mergeAdjGo (p.1, q.2) rest
    else p :: mergeAdjGo q rest

/-- The merge phase of `Slices.join`: fuse consecutive ranges where the first
range's end equals the second's start (the `while` loop over the sorted
list). -/
def mergeAdj : List (Nat × Nat) → List (Nat × Nat)
  | [] => []
  | p :: rest => mergeAdjGo p rest

/-- `Slices.join` on the underlying list: `slices.sort()` (a stable sort under
lexicographic list comparison, modelled by insertion sort, likewise stable)
followed by the adjacent-merge loop. -/
def joinList (l : List (Nat × Nat)) : List (Nat × Nat) :=
  mergeAdj (List.insertionSort pairLe l)

/-- `Slices.join()`. -/
def Slices.join (s : Slices) : Slices :=
  { s with slices := joinList s.slices }

/-- `Slices.canAllocate(n)`: first scan; on failure `join()` then rescan.
Returns the boolean result together with the mutated object state. -/
def Slices.canAllocate (n : Nat) (s : Slices) : Bool × Slices :=
  match firstFit n s.slices with
  | some i => (true, ⟨s.slices, some n, some i⟩)
  | none =>
    let l := joinList s.slices
    match firstFit n l with
    | some i => (true, ⟨l, some n, some i⟩)
    | none => (false, ⟨l, s.allocating, s.foundIdx⟩)

/-- `Slices.allocate(n)`.  `none` in the first component models the raised
exception (`Cannot allocate enough numbers from this slice`, or the
`TypeError` from using a `None` found slice); the second component is the
object state once the call returns or the exception propagates. -/
def Slices.allocate (n : Nat) (s : Slices) : Option (List Nat) × Slices :=
  let step : Bool × Slices :=
    if s.allocating = some n then (true, s) else Slices.canAllocate n s
  if step.1 then
    match step.2.foundIdx with
    | some i =>
      match step.2.slices.get? i with
      | some p =>
        (some ((List.range n).map (fun y => p.1 + y)),
         ⟨step.2.slices.set i (p.1 + n, p.2), none, none⟩)
      | none => (none, step.2)
    | none => (none, step.2)
  else (none, step.2)

/-- `Slices.release(numbers)`.  An empty list raises `ValueError` inside
`min()` before any mutation, leaving the state unchanged. -/
def Slices.release (numbers : List Nat) (s : Slices) : Slices :=
  match numbers with
  | [] => s
  | x :: xs =>
    let mn := xs.foldl Nat.min x
    let mx := xs.foldl Nat.max x
    if numbers.length - 1 = mx - mn then
      { s with slices := s.slices ++ [(mn, mx + 1)] }
    else
      { s with slices := s.slices ++ numbers.map (fun k => (k, k + 1)) }

/-! ### Basic lemmas about the allocator's scan, fold and release helpers -/

/-- The contiguous block of `n` integers starting at `a`
(what `xrange(a, a + n)` yields). -/
def contigBlock (a n : Nat) : List Nat :=
  (List.range n).map (fun y => a + y)

theorem firstFit_isSome_of_fit {n : Nat} {l : List (Nat × Nat)} (p : Nat × Nat)
    (hp : p ∈ l) (hfit : n < p.2 - p.1) : (firstFit n l).isSome = true := by
  induction l with
  | nil => simp at hp
  | cons q rest ih =>
    rw [firstFit]
    by_cases hq : n < q.2 - q.1
    · simp [hq]
    · rcases List.mem_cons.mp hp with rfl | hp
      · exact absurd hfit hq
      · simpa [hq] using ih hp

theorem firstFit_eq_some {n : Nat} :
    ∀ {l : List (Nat × Nat)} {i : Nat}, firstFit n l = some i →
      ∃ p, l.get? i = some p ∧ n < p.2 - p.1 := by
  intro l
  induction l with
  | nil => intro i h; simp [firstFit] at h
  | cons q rest ih =>
    intro i h
    rw [firstFit] at h
    by_cases hq : n < q.2 - q.1
    · simp [hq] at h
      exact h ▸ ⟨q, rfl, hq⟩
    · simp [hq] at h
      obtain ⟨j, hj, hji⟩ := h
      obtain ⟨p, hp, hfit⟩ := ih hj
      exact ⟨p, by simpa [← hji] using hp, hfit⟩

theorem foldl_min_le_init (xs : List Nat) (x : Nat) : xs.foldl Nat.min x ≤ x := by
  induction xs generalizing x with
  | nil => exact le_refl x
  | cons y ys ih =>
    exact le_trans (ih (Nat.min x y)) (Nat.min_le_left x y)

theorem foldl_min_le_mem {xs : List Nat} {y : Nat} (hy : y ∈ xs) (x : Nat) :
    xs.foldl Nat.min x ≤ y := by
  induction xs generalizing x with
  | nil => simp at hy
  | cons z zs ih =>
    rcases List.mem_cons.mp hy with rfl | hy
    · exact le_trans (foldl_min_le_init zs (Nat.min x y)) (Nat.min_le_right x y)
    · exact ih hy (Nat.min x z)

theorem foldl_min_mem (xs : List Nat) (x : Nat) :
    xs.foldl Nat.min x = x ∨ xs.foldl Nat.min x ∈ xs := by
  induction xs generalizing x with
  | nil => exact Or.inl rfl
  | cons z zs ih =>
    rw [List.foldl_cons]
    rcases ih (Nat.min x z) with h | h
    · rcases Nat.le_total x z with hxz | hzx
      · exact Or.inl (by simpa [Nat.min_eq_left hxz] using h)
      · refine Or.inr (List.mem_cons.mpr (Or.inl ?_))
        simpa [Nat.min_eq_right hzx] using h
    · exact Or.inr (List.mem_cons.mpr (Or.inr h))

theorem le_foldl_max_init (xs : List Nat) (x : Nat) : x ≤ xs.foldl Nat.max x := by
  induction xs generalizing x with
  | nil => exact le_refl x
  | cons y ys ih =>
    exact le_trans (Nat.le_max_left x y) (ih (Nat.max x y))

theorem le_foldl_max_mem {xs : List Nat} {y : Nat} (hy : y ∈ xs) (x : Nat) :
    y ≤ xs.foldl Nat.max x := by
  induction xs generalizing x with
  | nil => simp at hy
  | cons z zs ih =>
    rcases List.mem_cons.mp hy with rfl | hy
    · exact le_trans (Nat.le_max_right x y) (le_foldl_max_init zs (Nat.max x y))
    · exact ih hy (Nat.max x z)

theorem foldl_max_mem (xs : List Nat) (x : Nat) :
    xs.foldl Nat.max x = x ∨ xs.foldl Nat.max x ∈ xs := by
  induction xs generalizing x with
  | nil => exact Or.inl rfl
  | cons z zs ih =>
    rw [List.foldl_cons]
    rcases ih (Nat.max x z) with h | h
    · rcases Nat.le_total x z with hxz | hzx
      · refine Or.inr (List.mem_cons.mpr (Or.inl ?_))
        simpa [Nat.max_eq_right hxz] using h
      · exact Or.inl (by simpa [Nat.max_eq_left hzx] using h)
    · exact Or.inr (List.mem_cons.mpr (Or.inr h))

theorem mem_contigBlock {a n x : Nat} :
    x ∈ contigBlock a n ↔ a ≤ x ∧ x < a + n := by
  constructor
  · intro hx
    obtain ⟨y, hy, rfl⟩ := List.mem_map.mp hx
    have := List.mem_range.mp hy
    omega
  · intro ⟨h1, h2⟩
    exact List.mem_map.mpr ⟨x - a, List.mem_range.mpr (by omega), by omega⟩

/-- Releasing a contiguous block of `n ≥ 1` integers starting at `a` takes the
single-range branch of `release`: the block is appended as one free range. -/
theorem release_contigBlock (s : Slices) (a n : Nat) (hn : 0 < n) :
    Slices.release (contigBlock a n) s =
      { s with slices := s.slices ++ [(a, a + n)] } := by
  obtain ⟨m, rfl⟩ : ∃ m, n = m + 1 := ⟨n - 1, by omega⟩
  have hblock : contigBlock a (m + 1) = a :: (List.range m).map (fun y => a + (y + 1)) := by
    simp [contigBlock, List.range_succ_eq_map, Function.comp_def]
  rw [hblock]
  set xs := (List.range m).map (fun y => a + (y + 1)) with hxs
  rw [Slices.release.eq_def]
  simp only []
  have hmem : ∀ y ∈ xs, a + 1 ≤ y ∧ y ≤ a + m := by
    intro y hy
    obtain ⟨z, hz, rfl⟩ := List.mem_map.mp hy
    have := List.mem_range.mp hz
    omega
  have hmn : xs.foldl Nat.min a = a := by
    rcases foldl_min_mem xs a with h | h
    · exact h
    · have h1 := (hmem _ h).1
      have h2 := foldl_min_le_init xs a
      omega
  have hmx : xs.foldl Nat.max a = a + m := by
    rcases foldl_max_mem xs a with h | h
    · have : ∀ y ∈ xs, y ≤ a := by
        intro y hy
        exact le_trans (le_foldl_max_mem hy a) (le_of_eq h)
      rcases Nat.eq_zero_or_pos m with rfl | hm
      · simpa using h
      · have : a + 1 ≤ a := by
          have hx1 : a + 1 ∈ xs := by
            rw [hxs]
            exact List.mem_map.mpr ⟨0, List.mem_range.mpr hm, by omega⟩
          exact this _ hx1
        omega
    · have h1 := (hmem _ h).2
      have h2 : a + m ≤ xs.foldl Nat.max a := by
        rcases Nat.eq_zero_or_pos m with rfl | hm
        · simpa using le_foldl_max_init xs a
        · have hx1 : a + m ∈ xs := by
            rw [hxs]
            exact List.mem_map.mpr ⟨m - 1, List.mem_range.mpr (by omega), by omega⟩
          exact le_foldl_max_mem hx1 a
      omega
  have hlen : (a :: xs).length - 1 = xs.foldl Nat.max a - xs.foldl Nat.min a := by
    rw [hmn, hmx, hxs]
    simp
  simp only [hlen, if_pos rfl, hmn, hmx]
  have : a + m + 1 = a + (m + 1) := by omega
  rw [this]
  simp

/-- On success, `canAllocate` caches the request size and a valid index of a
free range strictly larger than the request. -/
theorem canAllocate_true_struct {n : Nat} {s : Slices}
    (h : (Slices.canAllocate n s).1 = true) :
    ∃ i p, (Slices.canAllocate n s).2.foundIdx = some i ∧
      (Slices.canAllocate n s).2.allocating = some n ∧
      (Slices.canAllocate n s).2.slices.get? i = some p ∧ n < p.2 - p.1 := by
  unfold Slices.canAllocate at *
  cases hf : firstFit n s.slices with
  | some i =>
    obtain ⟨p, hp, hfit⟩ := firstFit_eq_some hf
    exact ⟨i, p, by simp [hf], by simp [hf], by simp only [hf]; exact hp, hfit⟩
  | none =>
    cases hg : firstFit n (joinList s.slices) with
    | some i =>
      obtain ⟨p, hp, hfit⟩ := firstFit_eq_some hg
      exact ⟨i, p, by simp [hf, hg], by simp [hf, hg],
        by simp only [hf, hg]; exact hp, hfit⟩
    | none => simp [hf, hg] at h

/-! ### Claim C2 -/

/-- C2 (counterexample): on a fresh allocator over `[0,10)`, `allocate(4)`
returns `[0,1,2,3]`, a second `allocate(4)` returns `[4,5,6,7]`, but after
`release([0,1,2,3])` the call `canAllocate(4)` returns `False`, because
`canAllocate` demands a free range of size strictly greater than the request
(the off-by-one documented in the spec's design notes). -/
theorem c2_counterexample :
    (Slices.allocate 4 (Slices.init 0 10)).1 = some [0, 1, 2, 3] ∧
    (Slices.allocate 4 (Slices.allocate 4 (Slices.init 0 10)).2).1 =
      some [4, 5, 6, 7] ∧
    (Slices.canAllocate 4 (Slices.release [0, 1, 2, 3]
      (Slices.allocate 4 (Slices.allocate 4 (Slices.init 0 10)).2).2)).1 = false := by
  decide

/-- C2 (amended): after releasing a contiguous block of size `n`, any request
of size `m < n` succeeds immediately: the first scan of `canAllocate` already
finds a range (no `join` needed), and `canAllocate` returns `True`.  The
original request size `n` itself is refused by the strict `>` test. -/
theorem c2_amended_contiguous_release_refit (s : Slices) (a n m : Nat)
    (h : m < n) :
    (firstFit m (Slices.release (contigBlock a n) s).slices).isSome = true ∧
    (Slices.canAllocate m (Slices.release (contigBlock a n) s)).1 = true := by
  have hrel := release_contigBlock s a n (by omega)
  have hmem : ((a, a + n) : Nat × Nat) ∈ (Slices.release (contigBlock a n) s).slices := by
    rw [hrel]
    simp
  have hfit : m < (a, a + n).2 - (a, a + n).1 := by simp; omega
  have hsome := firstFit_isSome_of_fit _ hmem hfit
  refine ⟨hsome, ?_⟩
  obtain ⟨i, hi⟩ := Option.isSome_iff_exists.mp hsome
  simp [Slices.canAllocate, hi]

/-- C2 witness: the spec's own scenario state ([0,10), two allocations of 4,
release of the first block), with `m = 3 < 4 = n`. -/
theorem c2_amended_witness :
    3 < 4 ∧
    ((firstFit 3 (Slices.release (contigBlock 0 4)
        (Slices.allocate 4 (Slices.allocate 4 (Slices.init 0 10)).2).2).slices).isSome = true ∧
     (Slices.canAllocate 3 (Slices.release (contigBlock 0 4)
        (Slices.allocate 4 (Slices.allocate 4 (Slices.init 0 10)).2).2)).1 = true) :=
  ⟨by decide,
   c2_amended_contiguous_release_refit
     (Slices.allocate 4 (Slices.allocate 4 (Slices.init 0 10)).2).2 0 4 3 (by decide)⟩

/-! ### Claim C4 -/

/-- C4 (counterexample): a fresh allocator over `[0,10)` has no cached
candidate (`allocating = None`), yet `allocate(4)` succeeds and returns
`[0,1,2,3]` instead of raising. -/
theorem c4_counterexample :
    (Slices.init 0 10).allocating = none ∧
    (Slices.allocate 4 (Slices.init 0 10)).1 = some [0, 1, 2, 3] := by
  decide

/-- C4 (amended): when `allocate(n)` is called without a cached candidate for
size `n`, it first invokes `canAllocate(n)` itself and raises exactly when
that check fails. -/
theorem c4_amended_allocate_retries (s : Slices) (n : Nat)
    (h : s.allocating ≠ some n) :
    (Slices.allocate n s).1 = none ↔ (Slices.canAllocate n s).1 = false := by
  rw [Slices.allocate]
  simp only [if_neg h]
  cases hc : (Slices.canAllocate n s).1 with
  | true =>
    obtain ⟨i, p, hidx, _, hget, _⟩ := canAllocate_true_struct hc
    rw [List.get?_eq_getElem?] at hget
    simp [hc, hidx, hget]
  | false => simp [hc]

/-- C4 witness: allocator over the domain `[0,1)`, request of size 5. -/
theorem c4_amended_witness :
    (Slices.init 0 1).allocating ≠ some 5 ∧
    ((Slices.allocate 5 (Slices.init 0 1)).1 = none ↔
      (Slices.canAllocate 5 (Slices.init 0 1)).1 = false) :=
  ⟨by decide, c4_amended_allocate_retries (Slices.init 0 1) 5 (by decide)⟩

/-! ### Claim C7 -/

/-- C7: if `canAllocate(n)` returns `True` then the immediately following
`allocate(n)` (no intervening mutation) succeeds and returns exactly the `n`
contiguous integers at the low end of the cached free range, advancing that
range's start by `n`. -/
theorem c7_canAllocate_then_allocate (s : Slices) (n : Nat)
    (h : (Slices.canAllocate n s).1 = true) :
    ∃ i a b, (Slices.canAllocate n s).2.foundIdx = some i ∧
      (Slices.canAllocate n s).2.slices.get? i = some (a, b) ∧ n < b - a ∧
      Slices.allocate n (Slices.canAllocate n s).2 =
        (some (contigBlock a n),
         ⟨(Slices.canAllocate n s).2.slices.set i (a + n, b), none, none⟩) := by
  obtain ⟨i, p, hidx, halloc, hget, hfit⟩ := canAllocate_true_struct h
  refine ⟨i, p.1, p.2, hidx, by simpa using hget, hfit, ?_⟩
  have hget' := hget
  rw [List.get?_eq_getElem?] at hget'
  rw [Slices.allocate]
  simp [halloc, hidx, hget', contigBlock]

/-- C7 witness: fresh allocator over `[0,10)` with `n = 4`. -/
theorem c7_witness :
    (Slices.canAllocate 4 (Slices.init 0 10)).1 = true ∧
    (∃ i a b, (Slices.canAllocate 4 (Slices.init 0 10)).2.foundIdx = some i ∧
      (Slices.canAllocate 4 (Slices.init 0 10)).2.slices.get? i = some (a, b) ∧
      4 < b - a ∧
      Slices.allocate 4 (Slices.canAllocate 4 (Slices.init 0 10)).2 =
        (some (contigBlock a 4),
         ⟨(Slices.canAllocate 4 (Slices.init 0 10)).2.slices.set i (a + 4, b),
          none, none⟩)) :=
  ⟨by decide, c7_canAllocate_then_allocate (Slices.init 0 10) 4 (by decide)⟩

/-! ### Claim C3 -/

/-- C3 (counterexample): domain `[0,10)`, `n = 4`: `allocate(4)` succeeds,
yet after releasing the block and calling `join()` the check
`canAllocate(10)` on the full reunited domain returns `False` (strict `>`
refuses an exact fit). -/
theorem c3_counterexample :
    (Slices.allocate 4 (Slices.init 0 10)).1 = some (contigBlock 0 4) ∧
    (Slices.join (Slices.release (contigBlock 0 4)
        (Slices.allocate 4 (Slices.init 0 10)).2)).slices = [(0, 10)] ∧
    (Slices.canAllocate 10 (Slices.join (Slices.release (contigBlock 0 4)
        (Slices.allocate 4 (Slices.init 0 10)).2))).1 = false := by
  decide

/-- C3 (amended): for every domain size `D` and request `0 < n < D`
(`allocate(n)` on a fresh allocator succeeds exactly for `n < D`), the
round trip allocate `n` / release it / `join()` restores the free list to the
single original domain range, and `canAllocate(m)` then succeeds for every
`m < D`; `canAllocate(D)` itself stays `False` because of the documented
strict `>` off-by-one. -/
theorem c3_amended_roundtrip (D n : Nat) (h0 : 0 < n) (h1 : n < D) :
    (Slices.allocate n (Slices.init 0 D)).1 = some (contigBlock 0 n) ∧
    (Slices.join (Slices.release (contigBlock 0 n)
        (Slices.allocate n (Slices.init 0 D)).2)).slices = [(0, D)] ∧
    ∀ m, m < D →
      (Slices.canAllocate m (Slices.join (Slices.release (contigBlock 0 n)
          (Slices.allocate n (Slices.init 0 D)).2))).1 = true := by
  have hff : firstFit n [(0, D)] = some 0 := by
    simp [firstFit]
    omega
  have hcan : Slices.canAllocate n (Slices.init 0 D) =
      (true, ⟨[(0, D)], some n, some 0⟩) := by
    simp [Slices.canAllocate, Slices.init, hff]
  have halloc : Slices.allocate n (Slices.init 0 D) =
      (some (contigBlock 0 n), ⟨[(n, D)], none, none⟩) := by
    have hinit : (Slices.init 0 D).allocating = none := rfl
    rw [Slices.allocate]
    simp [hinit, hcan, contigBlock]
  have hrel : Slices.release (contigBlock 0 n)
      (Slices.allocate n (Slices.init 0 D)).2 =
      ⟨[(n, D), (0, n)], none, none⟩ := by
    rw [release_contigBlock _ _ _ h0, halloc]
    simp
  have hple : ¬ pairLe (n, D) (0, n) := by
    simp [pairLe]
    omega
  have hjoin : Slices.join (Slices.release (contigBlock 0 n)
      (Slices.allocate n (Slices.init 0 D)).2) = ⟨[(0, D)], none, none⟩ := by
    rw [hrel]
    simp [Slices.join, joinList, List.insertionSort, List.orderedInsert,
      if_neg hple, mergeAdj, mergeAdjGo]
  refine ⟨by rw [halloc], by rw [hjoin], ?_⟩
  intro m hm
  have hffm : firstFit m [(0, D)] = some 0 := by
    simp [firstFit]
    omega
  rw [hjoin]
  simp [Slices.canAllocate, hffm]

/-- C3 witness: domain size 10, request 4, follow-up check of size 9. -/
theorem c3_amended_witness :
    0 < 4 ∧ 4 < 10 ∧ 9 < 10 ∧
    (Slices.canAllocate 9 (Slices.join (Slices.release (contigBlock 0 4)
        (Slices.allocate 4 (Slices.init 0 10)).2))).1 = true :=
  ⟨by decide, by decide, by decide,
   (c3_amended_roundtrip 10 4 (by decide) (by decide)).2.2 9 (by decide)⟩

/-! ### Claim C8: allocator safety invariant

The trace semantics of a `Slices` object driven only by `allocate` and
`release` calls, with the set of currently-outstanding indices tracked on the
side. -/

/-- Membership in the union of the free ranges of a slice list. -/
def freeMem (x : Nat) (l : List (Nat × Nat)) : Prop :=
  ∃ p ∈ l, p.1 ≤ x ∧ x < p.2

/-- Two ranges share no point. -/
def rangesDisj (p q : Nat × Nat) : Prop :=
  ∀ x, p.1 ≤ x → x < p.2 → ¬(q.1 ≤ x ∧ x < q.2)

theorem rangesDisj_symm : ∀ {p q : Nat × Nat}, rangesDisj p q → rangesDisj q p :=
  fun h x hq1 hq2 hp => h x hp.1 hp.2 ⟨hq1, hq2⟩

/-- The slice-list part of the allocator invariant: every free range lies
inside the domain `[start, stop)` and is well formed; the ranges are pairwise
disjoint; the union of the free ranges is exactly the part of the domain that
is not outstanding; and every outstanding index lies in the domain. -/
def ListInv (start stop : Nat) (out : Finset Nat) (l : List (Nat × Nat)) : Prop :=
  (∀ p ∈ l, start ≤ p.1 ∧ p.1 ≤ p.2 ∧ p.2 ≤ stop) ∧
  l.Pairwise rangesDisj ∧
  (∀ x, freeMem x l ↔ (start ≤ x ∧ x < stop ∧ x ∉ out)) ∧
  (∀ k ∈ out, start ≤ k ∧ k < stop)

/-- Full allocator invariant: between calls of a pure `allocate`/`release`
trace the cached candidate is absent, and the slice list satisfies
`ListInv`. -/
def SlicesInv (start stop : Nat) (st : Slices × Finset Nat) : Prop :=
  st.1.allocating = none ∧ ListInv start stop st.2 st.1.slices

/-- The indices handed out by a (possibly failing) `allocate` call. -/
def optFinset : Option (List Nat) → Finset Nat
  | none => ∅
  | some l => l.toFinset

/-- One step of a trace that interleaves `allocate` and `release` calls;
each `release` passes a duplicate-free list of currently-outstanding
indices. -/
inductive RWStep : Slices × Finset Nat → Slices × Finset Nat → Prop
  | alloc (n : Nat) (s : Slices) (out : Finset Nat) :
      RWStep (s, out)
        ((Slices.allocate n s).2, out ∪ optFinset (Slices.allocate n s).1)
  | rel (xs : List Nat) (s : Slices) (out : Finset Nat)
      (hnd : xs.Nodup) (hsub : ∀ x ∈ xs, x ∈ out) :
      RWStep (s, out) (Slices.release xs s, out \ xs.toFinset)

/-- States reachable from a fresh allocator over `[start, stop)` with no
outstanding indices. -/
def Reach (start stop : Nat) (st : Slices × Finset Nat) : Prop :=
  Relation.ReflTransGen RWStep (Slices.init start stop, ∅) st

theorem freeMem_append {x : Nat} {l₁ l₂ : List (Nat × Nat)} :
    freeMem x (l₁ ++ l₂) ↔ freeMem x l₁ ∨ freeMem x l₂ := by
  simp only [freeMem, List.mem_append]
  constructor
  · rintro ⟨p, hp | hp, h⟩
    · exact Or.inl ⟨p, hp, h⟩
    · exact Or.inr ⟨p, hp, h⟩
  · rintro (⟨p, hp, h⟩ | ⟨p, hp, h⟩)
    · exact ⟨p, Or.inl hp, h⟩
    · exact ⟨p, Or.inr hp, h⟩

theorem freeMem_cons {x : Nat} {p : Nat × Nat} {l : List (Nat × Nat)} :
    freeMem x (p :: l) ↔ (p.1 ≤ x ∧ x < p.2) ∨ freeMem x l := by
  simp only [freeMem, List.mem_cons]
  constructor
  · rintro ⟨q, rfl | hq, h⟩
    · exact Or.inl h
    · exact Or.inr ⟨q, hq, h⟩
  · rintro (h | ⟨q, hq, h⟩)
    · exact ⟨p, Or.inl rfl, h⟩
    · exact ⟨q, Or.inr hq, h⟩

theorem freeMem_perm {x : Nat} {l₁ l₂ : List (Nat × Nat)} (h : l₁.Perm l₂) :
    freeMem x l₁ ↔ freeMem x l₂ := by
  simp only [freeMem]
  constructor
  · rintro ⟨p, hp, hx⟩
    exact ⟨p, h.mem_iff.mp hp, hx⟩
  · rintro ⟨p, hp, hx⟩
    exact ⟨p, h.mem_iff.mpr hp, hx⟩

/-- `mergeAdjGo` preserves range bounds, pairwise disjointness and the free
set, given well-formed, pairwise-disjoint input. -/
theorem mergeAdjGo_spec (start stop : Nat) :
    ∀ (rest : List (Nat × Nat)) (p : Nat × Nat),
      (start ≤ p.1 ∧ p.1 ≤ p.2 ∧ p.2 ≤ stop) →
      (∀ q ∈ rest, start ≤ q.1 ∧ q.1 ≤ q.2 ∧ q.2 ≤ stop) →
      (∀ q ∈ rest, rangesDisj p q) →
      rest.Pairwise rangesDisj →
      (∀ q ∈ mergeAdjGo p rest, start ≤ q.1 ∧ q.1 ≤ q.2 ∧ q.2 ≤ stop) ∧
      (mergeAdjGo p rest).Pairwise rangesDisj ∧
      (∀ x, freeMem x (mergeAdjGo p rest) ↔
        (p.1 ≤ x ∧ x < p.2) ∨ freeMem x rest) := by
  intro rest
  induction rest with
  | nil =>
    intro p hp _ _ _
    refine ⟨?_, ?_, ?_⟩
    · intro q hq
      rcases List.mem_singleton.mp hq with rfl
      exact hp
    · simp [mergeAdjGo]
    · intro x
      rw [mergeAdjGo, freeMem_cons]
  | cons q rest ih =>
    intro p hp hb hd hpw
    have hq := hb q (List.mem_cons_self q rest)
    have hrest_b : ∀ r ∈ rest, start ≤ r.1 ∧ r.1 ≤ r.2 ∧ r.2 ≤ stop :=
      fun r hr => hb r (List.mem_cons_of_mem q hr)
    have hq_rest : ∀ r ∈ rest, rangesDisj q r := (List.pairwise_cons.mp hpw).1
    have hrest_pw : rest.Pairwise rangesDisj := (List.pairwise_cons.mp hpw).2
    rw [mergeAdjGo]
    by_cases hpq : p.2 = q.1
    · rw [if_pos hpq]
      have hmerged : start ≤ (p.1, q.2).1 ∧ (p.1, q.2).1 ≤ (p.1, q.2).2 ∧
          (p.1, q.2).2 ≤ stop := by
        refine ⟨hp.1, ?_, hq.2.2⟩
        show p.1 ≤ q.2
        have h1 := hp.2.1
        have h2 := hq.2.1
        omega
      have hmd : ∀ r ∈ rest, rangesDisj (p.1, q.2) r := by
        intro r hr x hx1 hx2 hxr
        have hx1' : p.1 ≤ x := hx1
        have hx2' : x < q.2 := hx2
        by_cases hxp : x < p.2
        · exact hd r (List.mem_cons_of_mem q hr) x hx1' hxp hxr
        · exact hq_rest r hr x (by omega) hx2' hxr
      obtain ⟨h1, h2, h3⟩ := ih (p.1, q.2) hmerged hrest_b hmd hrest_pw
      refine ⟨h1, h2, ?_⟩
      intro x
      rw [h3 x, freeMem_cons]
      constructor
      · rintro (hx | hx)
        · simp only [] at hx
          by_cases hxp : x < p.2
          · exact Or.inl ⟨hx.1, hxp⟩
          · refine Or.inr (Or.inl ⟨?_, hx.2⟩)
            omega
        · exact Or.inr (Or.inr hx)
      · rintro (hx | hx | hx)
        · refine Or.inl ⟨hx.1, ?_⟩
          simp only []
          have := hq.2.1
          omega
        · refine Or.inl ⟨?_, hx.2⟩
          simp only []
          have := hp.2.1
          omega
        · exact Or.inr hx
    · rw [if_neg hpq]
      obtain ⟨h1, h2, h3⟩ := ih q hq hrest_b hq_rest hrest_pw
      have hpd : ∀ r ∈ mergeAdjGo q rest, rangesDisj p r := by
        intro r hr x hx1 hx2 hxr
        have hxfree : freeMem x (mergeAdjGo q rest) := ⟨r, hr, hxr.1, hxr.2⟩
        rcases (h3 x).mp hxfree with hx | hx
        · exact hd q (List.mem_cons_self q rest) x hx1 hx2 hx
        · obtain ⟨r', hr', hxr'⟩ := hx
          exact hd r' (List.mem_cons_of_mem q hr') x hx1 hx2 hxr'
      refine ⟨?_, ?_, ?_⟩
      · intro r hr
        rcases List.mem_cons.mp hr with rfl | hr
        · exact hp
        · exact h1 r hr
      · exact List.pairwise_cons.mpr ⟨hpd, h2⟩
      · intro x
        rw [freeMem_cons, h3 x, freeMem_cons]

/-- `joinList` (sort then merge) preserves the three list properties and the
free set. -/
theorem joinList_spec (start stop : Nat) (l : List (Nat × Nat))
    (hb : ∀ p ∈ l, start ≤ p.1 ∧ p.1 ≤ p.2 ∧ p.2 ≤ stop)
    (hpw : l.Pairwise rangesDisj) :
    (∀ p ∈ joinList l, start ≤ p.1 ∧ p.1 ≤ p.2 ∧ p.2 ≤ stop) ∧
    (joinList l).Pairwise rangesDisj ∧
    (∀ x, freeMem x (joinList l) ↔ freeMem x l) := by
  have hperm : (List.insertionSort pairLe l).Perm l := List.perm_insertionSort pairLe l
  have hb' : ∀ p ∈ List.insertionSort pairLe l,
      start ≤ p.1 ∧ p.1 ≤ p.2 ∧ p.2 ≤ stop :=
    fun p hp => hb p (hperm.mem_iff.mp hp)
  have hpw' : (List.insertionSort pairLe l).Pairwise rangesDisj :=
    (hperm.pairwise_iff (fun h => rangesDisj_symm h)).mpr hpw
  unfold joinList
  cases hs : List.insertionSort pairLe l with
  | nil =>
    have : ∀ x, ¬ freeMem x l := by
      intro x hx
      rw [← freeMem_perm hperm, hs] at hx
      obtain ⟨p, hp, _⟩ := hx
      simp at hp
    simp only [mergeAdj]
    exact ⟨by simp, by simp, fun x => by
      simp only [freeMem]
      constructor
      · rintro ⟨p, hp, _⟩
        simp at hp
      · intro hx
        exact absurd hx (this x)⟩
  | cons p rest =>
    rw [hs] at hb' hpw' hperm
    have hp := hb' p (List.mem_cons_self p rest)
    have hrb : ∀ q ∈ rest, start ≤ q.1 ∧ q.1 ≤ q.2 ∧ q.2 ≤ stop :=
      fun q hq => hb' q (List.mem_cons_of_mem p hq)
    obtain ⟨hpr, hrpw⟩ := List.pairwise_cons.mp hpw'
    obtain ⟨h1, h2, h3⟩ := mergeAdjGo_spec start stop rest p hp hrb hpr hrpw
    rw [mergeAdj]
    refine ⟨h1, h2, ?_⟩
    intro x
    rw [h3 x, ← freeMem_perm hperm, freeMem_cons]

theorem get?_decomp {α : Type} {l : List α} {i : Nat} {p : α}
    (h : l.get? i = some p) :
    ∃ l₁ l₂, l = l₁ ++ p :: l₂ ∧ l₁.length = i ∧
      ∀ q, l.set i q = l₁ ++ q :: l₂ := by
  induction l generalizing i with
  | nil => simp at h
  | cons a t ih =>
    cases i with
    | zero =>
      simp only [List.get?] at h
      obtain rfl : a = p := by injection h
      exact ⟨[], t, rfl, rfl, fun q => rfl⟩
    | succ j =>
      simp only [List.get?] at h
      obtain ⟨l₁, l₂, rfl, hlen, hset⟩ := ih h
      exact ⟨a :: l₁, l₂, rfl, by simp [hlen], fun q => by simp [hset q]⟩

/-- Appending a batch of free ranges whose union is exactly a released set
`R ⊆ out` preserves the list invariant, with `R` removed from the
outstanding set. -/
theorem append_release_listInv {start stop : Nat} {out : Finset Nat}
    {l : List (Nat × Nat)} (hinv : ListInv start stop out l)
    (L : List (Nat × Nat)) (R : Finset Nat)
    (hRout : ∀ k ∈ R, k ∈ out)
    (hLb : ∀ q ∈ L, start ≤ q.1 ∧ q.1 ≤ q.2 ∧ q.2 ≤ stop)
    (hLpw : L.Pairwise rangesDisj)
    (hLfree : ∀ k, freeMem k L ↔ k ∈ R) :
    ListInv start stop (out \ R) (l ++ L) := by
  obtain ⟨hb, hpw, hfree, hod⟩ := hinv
  refine ⟨?_, ?_, ?_, ?_⟩
  · intro p hp
    rcases List.mem_append.mp hp with hp | hp
    · exact hb p hp
    · exact hLb p hp
  · refine List.pairwise_append.mpr ⟨hpw, hLpw, ?_⟩
    intro a ha q hq x hx1 hx2 hxq
    have hfl : freeMem x l := ⟨a, ha, hx1, hx2⟩
    have hnout : x ∉ out := ((hfree x).mp hfl).2.2
    have hxR : x ∈ R := (hLfree x).mp ⟨q, hq, hxq.1, hxq.2⟩
    exact hnout (hRout x hxR)
  · intro x
    rw [freeMem_append, hfree x, hLfree x, Finset.mem_sdiff]
    constructor
    · rintro (⟨h1, h2, h3⟩ | hx)
      · exact ⟨h1, h2, fun hc => h3 hc.1⟩
      · exact ⟨(hod x (hRout x hx)).1, (hod x (hRout x hx)).2,
          fun hc => hc.2 hx⟩
    · rintro ⟨h1, h2, h3⟩
      by_cases hx : x ∈ R
      · exact Or.inr hx
      · exact Or.inl ⟨h1, h2, fun ho => h3 ⟨ho, hx⟩⟩
  · intro k hk
    exact hod k (Finset.mem_sdiff.mp hk).1

/-- `release` with a duplicate-free list of outstanding indices preserves the
list invariant, removing exactly those indices from the outstanding set. -/
theorem release_listInv {start stop : Nat} {out : Finset Nat} {s : Slices}
    (hinv : ListInv start stop out s.slices)
    (xs : List Nat) (hnd : xs.Nodup) (hsub : ∀ x ∈ xs, x ∈ out) :
    ListInv start stop (out \ xs.toFinset) (Slices.release xs s).slices := by
  match xs, hnd, hsub with
  | [], _, _ =>
    rw [Slices.release]
    simpa using hinv
  | x :: t, hnd, hsub =>
    have hdom : ∀ k ∈ x :: t, start ≤ k ∧ k < stop :=
      fun k hk => hinv.2.2.2 k (hsub k hk)
    have hmn_le : ∀ k ∈ x :: t, t.foldl Nat.min x ≤ k := by
      intro k hk
      rcases List.mem_cons.mp hk with rfl | hk
      · exact foldl_min_le_init t k
      · exact foldl_min_le_mem hk x
    have hle_mx : ∀ k ∈ x :: t, k ≤ t.foldl Nat.max x := by
      intro k hk
      rcases List.mem_cons.mp hk with rfl | hk
      · exact le_foldl_max_init t k
      · exact le_foldl_max_mem hk x
    have hmnmem : t.foldl Nat.min x ∈ x :: t := by
      rcases foldl_min_mem t x with h | h
      · rw [h]
        exact List.mem_cons_self x t
      · exact List.mem_cons_of_mem x h
    have hmxmem : t.foldl Nat.max x ∈ x :: t := by
      rcases foldl_max_mem t x with h | h
      · rw [h]
        exact List.mem_cons_self x t
      · exact List.mem_cons_of_mem x h
    rw [Slices.release]
    by_cases hc : (x :: t).length - 1 = t.foldl Nat.max x - t.foldl Nat.min x
    · rw [if_pos hc]
      have hIcc : (x :: t).toFinset =
          Finset.Icc (t.foldl Nat.min x) (t.foldl Nat.max x) := by
        apply Finset.eq_of_subset_of_card_le
        · intro k hk
          have hk' := List.mem_toFinset.mp hk
          exact Finset.mem_Icc.mpr ⟨hmn_le k hk', hle_mx k hk'⟩
        · rw [List.toFinset_card_of_nodup hnd, Nat.card_Icc]
          have h1 : t.foldl Nat.min x ≤ t.foldl Nat.max x :=
            le_trans (hmn_le x (List.mem_cons_self x t))
              (hle_mx x (List.mem_cons_self x t))
          have h2 : 1 ≤ (x :: t).length := by simp
          omega
      refine append_release_listInv hinv _ _ ?_ ?_ ?_ ?_
      · intro k hk
        exact hsub k (List.mem_toFinset.mp hk)
      · intro q hq
        rcases List.mem_singleton.mp hq with rfl
        refine ⟨(hdom _ hmnmem).1, ?_, ?_⟩
        · have h1 : t.foldl Nat.min x ≤ t.foldl Nat.max x :=
            le_trans (hmn_le x (List.mem_cons_self x t))
              (hle_mx x (List.mem_cons_self x t))
          omega
        · have := (hdom _ hmxmem).2
          omega
      · simp
      · intro k
        rw [List.mem_toFinset]
        constructor
        · rintro ⟨q, hq, h1, h2⟩
          rcases List.mem_singleton.mp hq with rfl
          have : k ∈ (x :: t).toFinset := by
            rw [hIcc]
            exact Finset.mem_Icc.mpr ⟨h1, by omega⟩
          exact List.mem_toFinset.mp this
        · intro hk
          exact ⟨_, List.mem_singleton.mpr rfl, hmn_le k hk, by
            have := hle_mx k hk
            omega⟩
    · rw [if_neg hc]
      refine append_release_listInv hinv _ ((x :: t).toFinset) ?_ ?_ ?_ ?_
      · intro k hk
        exact hsub k (List.mem_toFinset.mp hk)
      · intro q hq
        obtain ⟨k, hk, rfl⟩ := List.mem_map.mp hq
        exact ⟨(hdom k hk).1, by omega, by
          have := (hdom k hk).2
          omega⟩
      · refine List.pairwise_map.mpr (List.Pairwise.imp ?_ hnd)
        intro a b hab y hy1 hy2 hyb
        simp only [] at hy1 hy2
        have h1 := hyb.1
        have h2 := hyb.2
        omega
      · intro k
        rw [List.mem_toFinset]
        constructor
        · rintro ⟨q, hq, h1, h2⟩
          obtain ⟨k', hk', rfl⟩ := List.mem_map.mp hq
          have : k = k' := by
            simp only [] at h1 h2
            omega
          exact this ▸ hk'
        · intro hk
          exact ⟨(k, k + 1), List.mem_map.mpr ⟨k, hk, rfl⟩, le_refl k,
            Nat.lt_succ_self k⟩

/-- Carving the block `[p.1, p.1 + n)` out of the free range at index `i`
preserves the list invariant, the block becoming outstanding; the block was
free (hence inside the domain and not outstanding) beforehand. -/
theorem set_alloc_listInv {start stop n i : Nat} {out : Finset Nat}
    {l : List (Nat × Nat)} {p : Nat × Nat}
    (hinv : ListInv start stop out l) (hget : l.get? i = some p)
    (hfit : n < p.2 - p.1) :
    ListInv start stop (out ∪ (contigBlock p.1 n).toFinset)
      (l.set i (p.1 + n, p.2)) ∧
    (∀ x ∈ contigBlock p.1 n, (start ≤ x ∧ x < stop) ∧ x ∉ out) := by
  obtain ⟨l₁, l₂, rfl, hlen, hset⟩ := get?_decomp hget
  obtain ⟨hb, hpw, hfree, hod⟩ := hinv
  have hpmem : p ∈ l₁ ++ p :: l₂ := by simp
  have hpb := hb p hpmem
  have hBp : ∀ x ∈ contigBlock p.1 n, p.1 ≤ x ∧ x < p.2 := by
    intro x hx
    have := mem_contigBlock.mp hx
    omega
  have hBfree : ∀ x ∈ contigBlock p.1 n, (start ≤ x ∧ x < stop) ∧ x ∉ out := by
    intro x hx
    have h := (hfree x).mp ⟨p, hpmem, (hBp x hx).1, (hBp x hx).2⟩
    exact ⟨⟨h.1, h.2.1⟩, h.2.2⟩
  have hpwA := List.pairwise_append.mp hpw
  have hpwC := List.pairwise_cons.mp hpwA.2.1
  rw [hset]
  refine ⟨⟨?_, ?_, ?_, ?_⟩, hBfree⟩
  · intro q hq
    rcases List.mem_append.mp hq with hq | hq
    · exact hb q (List.mem_append.mpr (Or.inl hq))
    · rcases List.mem_cons.mp hq with rfl | hq
      · refine ⟨?_, ?_, hpb.2.2⟩
        · have := hpb.1
          show start ≤ p.1 + n
          omega
        · show p.1 + n ≤ p.2
          omega
      · exact hb q (List.mem_append.mpr (Or.inr (List.mem_cons_of_mem p hq)))
  · refine List.pairwise_append.mpr ⟨hpwA.1, List.pairwise_cons.mpr ⟨?_, hpwC.2⟩, ?_⟩
    · intro b hb' x hx1 hx2 hxb
      have hx1' : p.1 + n ≤ x := hx1
      have hx2' : x < p.2 := hx2
      exact hpwC.1 b hb' x (by omega) hx2' hxb
    · intro a ha b hb'
      rcases List.mem_cons.mp hb' with rfl | hb'
      · intro x hx1 hx2 hxb
        have h1 : p.1 + n ≤ x := hxb.1
        have h2 : x < p.2 := hxb.2
        exact hpwA.2.2 a ha p (List.mem_cons_self p l₂) x hx1 hx2 ⟨by omega, h2⟩
      · exact hpwA.2.2 a ha b (List.mem_cons_of_mem p hb')
  · intro x
    rw [freeMem_append, freeMem_cons]
    have hold := hfree x
    rw [freeMem_append, freeMem_cons] at hold
    have hBmem : x ∈ (contigBlock p.1 n).toFinset ↔ (p.1 ≤ x ∧ x < p.1 + n) := by
      rw [List.mem_toFinset, mem_contigBlock]
    constructor
    · rintro (hx | hx | hx)
      · have h := hold.mp (Or.inl hx)
        refine ⟨h.1, h.2.1, ?_⟩
        rw [Finset.mem_union, hBmem]
        rintro (ho | hB)
        · exact h.2.2 ho
        · obtain ⟨q, hq, hxq⟩ := hx
          exact hpwA.2.2 q hq p (List.mem_cons_self p l₂) x hxq.1 hxq.2
            ⟨hB.1, by omega⟩
      · have hx1 : p.1 + n ≤ x := hx.1
        have hx2 : x < p.2 := hx.2
        have h := hold.mp (Or.inr (Or.inl ⟨by omega, hx2⟩))
        refine ⟨h.1, h.2.1, ?_⟩
        rw [Finset.mem_union, hBmem]
        rintro (ho | hB)
        · exact h.2.2 ho
        · omega
      · have h := hold.mp (Or.inr (Or.inr hx))
        refine ⟨h.1, h.2.1, ?_⟩
        rw [Finset.mem_union, hBmem]
        rintro (ho | hB)
        · exact h.2.2 ho
        · obtain ⟨q, hq, hxq⟩ := hx
          exact rangesDisj_symm
            (hpwC.1 q hq) x hxq.1 hxq.2 ⟨hB.1, by omega⟩
      -- the three cases above also use that the block lies inside `p`
    · rintro ⟨h1, h2, h3⟩
      rw [Finset.mem_union, hBmem] at h3
      push_neg at h3
      have hxout : x ∉ out := h3.1
      rcases hold.mpr ⟨h1, h2, hxout⟩ with hx | hx | hx
      · exact Or.inl hx
      · refine Or.inr (Or.inl ⟨?_, hx.2⟩)
        have := h3.2
        omega
      · exact Or.inr (Or.inr hx)
  · intro k hk
    rcases Finset.mem_union.mp hk with hk | hk
    · exact hod k hk
    · exact (hBfree k (List.mem_toFinset.mp hk)).1

/-- A (possibly failing) `allocate` call in a pure trace preserves the
allocator invariant, and any indices it returns were free — inside the
domain and not outstanding. -/
theorem allocate_slicesInv {start stop : Nat} {s : Slices} {out : Finset Nat}
    (h : SlicesInv start stop (s, out)) (n : Nat) :
    SlicesInv start stop
      ((Slices.allocate n s).2, out ∪ optFinset (Slices.allocate n s).1) ∧
    (∀ ret, (Slices.allocate n s).1 = some ret →
      ∀ x ∈ ret, (start ≤ x ∧ x < stop) ∧ x ∉ out) := by
  obtain ⟨ha, hli⟩ := h
  have hnotcached : ¬ s.allocating = some n := by
    rw [ha]
    simp
  cases hf : firstFit n s.slices with
  | some i =>
    obtain ⟨p, hget, hfit⟩ := firstFit_eq_some hf
    have hget' := hget
    rw [List.get?_eq_getElem?] at hget'
    have halloc : Slices.allocate n s =
        (some (contigBlock p.1 n),
         ⟨s.slices.set i (p.1 + n, p.2), none, none⟩) := by
      rw [Slices.allocate]
      simp [hnotcached, Slices.canAllocate, hf, hget', contigBlock]
    obtain ⟨hinv', hfresh⟩ := set_alloc_listInv hli hget hfit
    rw [halloc]
    refine ⟨⟨rfl, hinv'⟩, ?_⟩
    intro ret hret x hx
    obtain rfl : contigBlock p.1 n = ret := by injection hret
    exact hfresh x hx
  | none =>
    have hJ : ListInv start stop out (joinList s.slices) := by
      obtain ⟨hb, hpw, hfree, hod⟩ := hli
      obtain ⟨h1, h2, h3⟩ := joinList_spec start stop s.slices hb hpw
      exact ⟨h1, h2, fun x => (h3 x).trans (hfree x), hod⟩
    cases hg : firstFit n (joinList s.slices) with
    | some i =>
      obtain ⟨p, hget, hfit⟩ := firstFit_eq_some hg
      have hget' := hget
      rw [List.get?_eq_getElem?] at hget'
      have halloc : Slices.allocate n s =
          (some (contigBlock p.1 n),
           ⟨(joinList s.slices).set i (p.1 + n, p.2), none, none⟩) := by
        rw [Slices.allocate]
        simp [hnotcached, Slices.canAllocate, hf, hg, hget', contigBlock]
      obtain ⟨hinv', hfresh⟩ := set_alloc_listInv hJ hget hfit
      rw [halloc]
      refine ⟨⟨rfl, hinv'⟩, ?_⟩
      intro ret hret x hx
      obtain rfl : contigBlock p.1 n = ret := by injection hret
      exact hfresh x hx
    | none =>
      have halloc : Slices.allocate n s =
          (none, ⟨joinList s.slices, s.allocating, s.foundIdx⟩) := by
        rw [Slices.allocate]
        simp [hnotcached, Slices.canAllocate, hf, hg]
      rw [halloc]
      refine ⟨⟨ha, ?_⟩, ?_⟩
      · simpa [optFinset] using hJ
      · intro ret hret
        simp at hret
  -- release case is handled separately

/-- A `release` call with a duplicate-free list of outstanding indices
preserves the allocator invariant. -/
theorem release_slicesInv {start stop : Nat} {s : Slices} {out : Finset Nat}
    (h : SlicesInv start stop (s, out)) (xs : List Nat) (hnd : xs.Nodup)
    (hsub : ∀ x ∈ xs, x ∈ out) :
    SlicesInv start stop (Slices.release xs s, out \ xs.toFinset) := by
  obtain ⟨ha, hli⟩ := h
  refine ⟨?_, release_listInv hli xs hnd hsub⟩
  match xs with
  | [] => exact ha
  | x :: t =>
    rw [Slices.release]
    dsimp only []
    split
    · exact ha
    · exact ha

/-- Every reachable state of a pure `allocate`/`release` trace over the
domain `[start, stop)` satisfies the allocator invariant. -/
theorem reach_slicesInv {start stop : Nat} (hle : start ≤ stop)
    {st : Slices × Finset Nat} (h : Reach start stop st) :
    SlicesInv start stop st := by
  induction h with
  | refl =>
    refine ⟨rfl, ?_, ?_, ?_, ?_⟩
    · intro p hp
      simp only [Slices.init] at hp
      rcases List.mem_singleton.mp hp with rfl
      exact ⟨le_refl start, hle, le_refl stop⟩
    · simp [Slices.init]
    · intro x
      simp only [Slices.init]
      rw [freeMem_cons]
      simp [freeMem, and_assoc]
    · simp
  | tail hab hstep ih =>
    cases hstep with
    | alloc n s out => exact (allocate_slicesInv ih n).1
    | rel xs s out hnd hsub => exact release_slicesInv ih xs hnd hsub

/-! ### Claim C8 -/

/-- C8 (counterexample): the claim as stated admits release lists that repeat
an outstanding index.  Domain `[0,6)`: `allocate(5)` hands out `0..4`;
`release([0,0,1,3])` passes only currently-outstanding indices, but its
length test misreads the list as the contiguous block `0..3`, freeing the
still-outstanding index `2`; after `allocate(2)` returns `[0,1]`, a further
`allocate(1)` returns `[2]` even though `2` is still outstanding — a
duplicate outstanding index. -/
theorem c8_counterexample :
    (Slices.allocate 5 (Slices.init 0 6)).1 = some [0, 1, 2, 3, 4] ∧
    (∀ k ∈ [0, 0, 1, 3], k ∈ [0, 1, 2, 3, 4]) ∧
    (Slices.allocate 2 (Slices.release [0, 0, 1, 3]
        (Slices.allocate 5 (Slices.init 0 6)).2)).1 = some [0, 1] ∧
    (Slices.allocate 1 (Slices.allocate 2 (Slices.release [0, 0, 1, 3]
        (Slices.allocate 5 (Slices.init 0 6)).2)).2).1 = some [2] ∧
    2 ∈ [0, 1, 2, 3, 4] ∧ 2 ∉ [0, 0, 1, 3] ∧ 2 ∉ [0, 1] := by
  decide

/-- C8 (amended): over a well-formed domain `[start, stop)`, along every
trace of interleaved `allocate`/`release` calls in which each release passes
a duplicate-free list of currently-outstanding indices, the outstanding set
stays inside the domain and no `allocate` returns an index that is already
outstanding. -/
theorem c8_amended_outstanding_invariant (start stop : Nat)
    (hle : start ≤ stop) (s : Slices) (out : Finset Nat)
    (h : Reach start stop (s, out)) :
    (∀ k ∈ out, start ≤ k ∧ k < stop) ∧
    (∀ n ret, (Slices.allocate n s).1 = some ret →
      ∀ x ∈ ret, (start ≤ x ∧ x < stop) ∧ x ∉ out) := by
  have hinv := reach_slicesInv hle h
  exact ⟨hinv.2.2.2.2, fun n => (allocate_slicesInv hinv n).2⟩

/-- C8 witness: the fresh allocator over `[0,6)` with no outstanding
indices. -/
theorem c8_amended_witness :
    0 ≤ 6 ∧
    ((∀ k ∈ (∅ : Finset Nat), 0 ≤ k ∧ k < 6) ∧
     (∀ n ret, (Slices.allocate n (Slices.init 0 6)).1 = some ret →
       ∀ x ∈ ret, (0 ≤ x ∧ x < 6) ∧ x ∉ (∅ : Finset Nat))) :=
  ⟨by decide,
   c8_amended_outstanding_invariant 0 6 (by decide) (Slices.init 0 6) ∅
     Relation.ReflTransGen.refl⟩

/-! ### GL3Client draw-index bookkeeping (infrastructure.py)

An index-list record made by `makeLayerIndices` is the Python list
`[indices, min, len, slots, allocated, dirty, pending, startAddress]`.  The
`startAddress` entry (a ctypes pointer aliasing the `indices` array) is not
modelled: it is raw-memory layout, and no claim here depends on it.  The
`indices` ctypes array is modelled as a total function from positions to
values. -/
structure IndexRecord where
  indices : Nat → Nat
  min : Nat
  len : Nat
  slices : Slices
  allocated : Finset Nat
  dirty : Bool
  pending : List Nat

/-- The fresh record appended by `makeLayerIndices`: a zero-initialised
ctypes array, empty active range, a `Slices(0, capacity)` allocator, no
allocated slots, clean, nothing pending. -/
def freshRecord (capacity : Nat) : IndexRecord :=
  ⟨fun _ => 0, 0, 0, Slices.init 0 capacity, ∅, false, []⟩

/-- The `while not found and indx < len(layerData[3])` loop of
`getRenderSlots`, made total with a fuel parameter; `none` means the fuel ran
out, i.e. the loop had not exited after that many iterations.  The loop body
reads record `indx`, runs `canAllocate(n)` on its allocator (mutating it) and
stores the result in `found` — it never changes `indx`. -/
def grsLoop (n : Nat) : Nat → List IndexRecord × Nat × Bool →
    Option (List IndexRecord × Nat × Bool)
  | 0, _ => none
  | fuel + 1, (records, indx, found) =>
    if found = false ∧ indx < records.length then
      match records.get? indx with
      | some r =>
        grsLoop n fuel
          (records.set indx { r with slices := (Slices.canAllocate n r.slices).2 },
           indx, (Slices.canAllocate n r.slices).1)
      | none => none
    else some (records, indx, found)

/-- `GL3Client.getRenderSlots(n, layer, vertexArrays)`, restricted to the
per-(buffer region, layer) list of index-list records it manipulates (the
layer is assumed already created; `capacity` is `layerData[1]`, the size used
for a new record).  After the scan loop: if nothing was found, append a fresh
record (`makeLayerIndices`) and use it; then `allocate(n)` from the chosen
record, mark it dirty and add the returned slots to its allocated set.
Returns `(slots, listIndex, records)`; the outer `none` means the scan loop
never terminated. -/
def getRenderSlots (fuel n capacity : Nat) (records : List IndexRecord) :
    Option (Option (List Nat) × Nat × List IndexRecord) :=
  match grsLoop n fuel (records, 0, false) with
  | none => none
  | some (records1, indx, found) =>
    let pair : List IndexRecord × Nat :=
      if found then (records1, indx)
      else (records1 ++ [freshRecord capacity], records1.length)
    match pair.1.get? pair.2 with
    | some r =>
      match Slices.allocate n r.slices with
      | (some ret, s2) =>
        some (some ret, pair.2,
          pair.1.set pair.2
            { r with slices := s2, dirty := true,
                     allocated := r.allocated ∪ ret.toFinset })
      | (none, s2) =>
        some (none, pair.2, pair.1.set pair.2 { r with slices := s2 })
    | none => none

/-- `GL3Client.clean(layerData, sizeOfIndices)`: zero-fill the pending
slots in the raw index array, `join()` the record's allocator, drop the
pending slots from the allocated set, clear pending and dirty, and recompute
the active range from the remaining allocated set — `(min(set), max-min+1)`
if non-empty, `(0, 0)` otherwise.  (The `layerData[7]` base-address
recomputation is ctypes pointer arithmetic and is not modelled.) -/
def clean (r : IndexRecord) : IndexRecord :=
  let indices1 : Nat → Nat := fun i => if i ∈ r.pending then 0 else r.indices i
  let slices1 := Slices.join r.slices
  let allocated1 := r.allocated \ r.pending.toFinset
  if h : allocated1.Nonempty then
    ⟨indices1, allocated1.min' h, allocated1.max' h - allocated1.min' h + 1,
     slices1, allocated1, false, []⟩
  else
    ⟨indices1, 0, 0, slices1, allocated1, false, []⟩

/-! ### Claim C1 -/

/-- C1 (code bug): the scan loop of `getRenderSlots` never increments
`indx`.  Concretely: on a fresh layer of capacity 10, `getRenderSlots(8)`
terminates immediately (the record list is empty, so a record is appended)
and leaves record 0 with free ranges `[(8,10)]`; a following
`getRenderSlots(3)` then re-runs `canAllocate(3)` on record 0 forever — for
every fuel bound the loop has not exited — instead of scanning further
records or appending a new one. -/
theorem c1_getRenderSlots_diverges :
    ((getRenderSlots 1 8 10 []).map
        (fun t => (t.1, t.2.1, t.2.2.map (fun r => (r.slices, r.dirty)))) =
      some (some [0, 1, 2, 3, 4, 5, 6, 7], 0,
        [(⟨[(8, 10)], none, none⟩, true)])) ∧
    ∀ (fuel : Nat) (r : IndexRecord) (rest : List IndexRecord),
      r.slices = ⟨[(8, 10)], none, none⟩ →
      getRenderSlots fuel 3 10 (r :: rest) = none := by
  constructor
  · rfl
  · have hloop : ∀ (fuel : Nat) (r : IndexRecord) (rest : List IndexRecord),
        r.slices = ⟨[(8, 10)], none, none⟩ →
        grsLoop 3 fuel (r :: rest, 0, false) = none := by
      intro fuel
      induction fuel with
      | zero => intro r rest hr; rfl
      | succ f ih =>
        intro r rest hr
        rw [grsLoop]
        have hcond : (false = false ∧ 0 < (r :: rest).length) := by simp
        rw [if_pos hcond]
        have hcan : Slices.canAllocate 3 r.slices =
            (false, ⟨[(8, 10)], none, none⟩) := by
          rw [hr]
          decide
        simp only [List.get?, hcan, List.set]
        exact ih { r with slices := ⟨[(8, 10)], none, none⟩ } rest rfl
    intro fuel r rest hr
    rw [getRenderSlots, hloop fuel r rest hr]

/-- C1 witness: the stuck state with concrete record contents, fuel 5. -/
theorem c1_witness :
    ((⟨fun _ => 0, 0, 0, ⟨[(8, 10)], none, none⟩, ∅, false, []⟩ :
        IndexRecord)).slices = ⟨[(8, 10)], none, none⟩ ∧
    getRenderSlots 5 3 10
      [⟨fun _ => 0, 0, 0, ⟨[(8, 10)], none, none⟩, ∅, false, []⟩] = none :=
  ⟨rfl, c1_getRenderSlots_diverges.2 5
    ⟨fun _ => 0, 0, 0, ⟨[(8, 10)], none, none⟩, ∅, false, []⟩ [] rfl⟩

/-! ### Claim C6 -/

/-- C6: after `clean`, every formerly pending slot's entry in the raw index
array is zero, the pending list is empty, the dirty flag is cleared, the
pending slots are removed from the allocated set, and the active range
`[min, min+len)` runs exactly from the minimum to the maximum of the
remaining allocated set — or is `(0, 0)` when that set is empty. -/
theorem c6_clean_spec (r : IndexRecord) :
    (∀ s ∈ r.pending, (clean r).indices s = 0) ∧
    (clean r).pending = [] ∧
    (clean r).dirty = false ∧
    (clean r).allocated = r.allocated \ r.pending.toFinset ∧
    ((clean r).allocated ≠ ∅ →
      (clean r).min ∈ (clean r).allocated ∧
      (clean r).min + (clean r).len - 1 ∈ (clean r).allocated ∧
      ∀ k ∈ (clean r).allocated,
        (clean r).min ≤ k ∧ k ≤ (clean r).min + (clean r).len - 1) ∧
    ((clean r).allocated = ∅ → (clean r).min = 0 ∧ (clean r).len = 0) := by
  rw [clean]
  by_cases h : (r.allocated \ r.pending.toFinset).Nonempty
  · rw [dif_pos h]
    set A := r.allocated \ r.pending.toFinset with hA
    have hminmax : A.min' h ≤ A.max' h :=
      Finset.min'_le A (A.max' h) (Finset.max'_mem A h)
    have hrange : A.min' h + (A.max' h - A.min' h + 1) - 1 = A.max' h := by
      omega
    refine ⟨?_, rfl, rfl, rfl, ?_, ?_⟩
    · intro s hs
      simp [if_pos hs]
    · intro _
      refine ⟨Finset.min'_mem A h, ?_, ?_⟩
      · rw [hrange]
        exact Finset.max'_mem A h
      · intro k hk
        rw [hrange]
        exact ⟨Finset.min'_le A k hk, Finset.le_max' A k hk⟩
    · intro hempty
      exact absurd hempty (Finset.nonempty_iff_ne_empty.mp h)
  · rw [dif_neg h]
    refine ⟨?_, rfl, rfl, rfl, ?_, fun _ => ⟨rfl, rfl⟩⟩
    · intro s hs
      simp [if_pos hs]
    · intro hne
      exact absurd (Finset.not_nonempty_iff_eq_empty.mp h) hne

/-- C6 witness: record with array constantly 7, allocated `{0,2,5}`,
pending `[0]`: after `clean` the active range is `[2, 6)` with
`min + len - 1 = 5`. -/
theorem c6_witness :
    (∀ s ∈ ([0] : List Nat),
      (clean ⟨fun _ => 7, 0, 0, Slices.init 0 10, {0, 2, 5}, true, [0]⟩).indices s = 0) ∧
    ((clean ⟨fun _ => 7, 0, 0, Slices.init 0 10, {0, 2, 5}, true, [0]⟩).allocated ≠ ∅ →
      (clean ⟨fun _ => 7, 0, 0, Slices.init 0 10, {0, 2, 5}, true, [0]⟩).min ∈
        (clean ⟨fun _ => 7, 0, 0, Slices.init 0 10, {0, 2, 5}, true, [0]⟩).allocated ∧
      (clean ⟨fun _ => 7, 0, 0, Slices.init 0 10, {0, 2, 5}, true, [0]⟩).min +
        (clean ⟨fun _ => 7, 0, 0, Slices.init 0 10, {0, 2, 5}, true, [0]⟩).len - 1 ∈
        (clean ⟨fun _ => 7, 0, 0, Slices.init 0 10, {0, 2, 5}, true, [0]⟩).allocated ∧
      ∀ k ∈ (clean ⟨fun _ => 7, 0, 0, Slices.init 0 10, {0, 2, 5}, true, [0]⟩).allocated,
        (clean ⟨fun _ => 7, 0, 0, Slices.init 0 10, {0, 2, 5}, true, [0]⟩).min ≤ k ∧
        k ≤ (clean ⟨fun _ => 7, 0, 0, Slices.init 0 10, {0, 2, 5}, true, [0]⟩).min +
          (clean ⟨fun _ => 7, 0, 0, Slices.init 0 10, {0, 2, 5}, true, [0]⟩).len - 1) :=
  ⟨(c6_clean_spec ⟨fun _ => 7, 0, 0, Slices.init 0 10, {0, 2, 5}, true, [0]⟩).1,
   (c6_clean_spec ⟨fun _ => 7, 0, 0, Slices.init 0 10, {0, 2, 5}, true, [0]⟩).2.2.2.2.1⟩

/-! ### Claim C5: `GL3Client.uploadSlotData` -/

/-- The two kinds of exception `uploadSlotData` can raise: the explicit
`ValueError('Layer does not exist on client')`, and the `IndexError` a bad
list subscript raises. -/
inductive PyErr where
  | valueErr
  | indexErr
deriving DecidableEq, Repr

/-- The per-(buffer region, layer) data list made by `makeLayer`:
`[indicesArrayType, indicesLength, sizeOfIndices, indicesLists]`.  The
class object `layerData[0]` carries no data and is not modelled; the list
itself always has exactly 4 items (see `LayerData.pyLen`). -/
structure LayerData where
  indicesLen : Nat
  sizeOfIndices : Nat
  records : List IndexRecord

/-- `len(self.layers[vertexArrays][layer])`: the Python layerData list
`[indicesArrayType, indicesLength, sizeOfIndices, indicesLists]` always has
exactly 4 items, whatever the number of index-list records inside
`layerData[3]`. -/
def LayerData.pyLen (_ : LayerData) : Nat := 4

/-- The `self.layers` table of a `GL3Client`: buffer regions (identified by
a key) mapping to their per-layer data. -/
structure GL3Client where
  layers : List (Nat × List (Nat × LayerData))

/-- The write loop of `uploadSlotData`:
`for x in xrange(len(slots)): ...[3][indx][0][slots[x]] = data[x]`.
Python evaluates the right-hand side `data[x]` before the target chain, so
an exhausted `data` raises `IndexError` first; then subscripting the record
list with an out-of-range `indx` raises `IndexError`.  (Bounds of the ctypes
array itself are not modelled: the array is a total function.) -/
def uploadWrites : List IndexRecord → Nat → List Nat → List Nat →
    Except PyErr (List IndexRecord)
  | records, _, [], _ => .ok records
  | _, _, _ :: _, [] => .error .indexErr
  | records, indx, s :: srest, d :: drest =>
    match records.get? indx with
    | some r =>
      uploadWrites (records.set indx
        { r with indices := fun i => if i = s then d else r.indices i })
        indx srest drest
    | none => .error .indexErr

/-- `GL3Client.uploadSlotData(data, slots, layer, indx, vertexArrays)`.
Raises `ValueError` when the buffer region or layer is unknown, or when
`indx < len(layerData)` fails — where `len(layerData)` is the constant 4,
not the number of index-list records; then runs the write loop.  Returns
the records of the addressed layer after the writes (the only state the
call mutates). -/
def uploadSlotData (data slots : List Nat) (layer indx va : Nat)
    (c : GL3Client) : Except PyErr (List IndexRecord) :=
  match c.layers.lookup va with
  | none => .error .valueErr
  | some layerMap =>
    match layerMap.lookup layer with
    | none => .error .valueErr
    | some ld =>
      if indx < ld.pyLen then uploadWrites ld.records indx slots data
      else .error .valueErr

/-- Forget the resulting records, keeping only which exception (if any) the
call raised. -/
def uploadErr (e : Except PyErr (List IndexRecord)) : Option PyErr :=
  match e with
  | .error err => some err
  | .ok _ => none

/-- C5 (code bug): the guard compares `indx` against `len(layerData)` — the
constant 4 — instead of `len(layerData[3])`, the number of index-list
records.  With 5 records on (region 0, layer 7), uploading to the perfectly
valid record index 4 raises `ValueError('Layer does not exist on client')`;
and with 1 record, uploading an empty slot list to the non-existent record
index 2 raises nothing at all. -/
theorem c5_uploadSlotData_wrong_bound :
    (uploadErr (uploadSlotData [9] [0] 7 4 0
        ⟨[(0, [(7, ⟨10, 4, List.replicate 5 (freshRecord 10)⟩)])]⟩) =
      some PyErr.valueErr) ∧
    ((List.replicate 5 (freshRecord 10)).length = 5 ∧ 4 < 5) ∧
    (uploadErr (uploadSlotData [] [] 7 2 0
        ⟨[(0, [(7, ⟨10, 4, [freshRecord 10]⟩)])]⟩) = none) ∧
    ([freshRecord 10].length = 1 ∧ ¬ 2 < 1) := by
  refine ⟨rfl, ⟨by simp, by decide⟩, rfl, by simp, by decide⟩

/-! ### Claim C9: dynamic-VBO attribute setters (shaderdata.py)

State of a `VertexArrays` object as the metaprogrammed setters see it:
`arraysR` maps an array name to its typed backing array (a total function
from element index to value), `dirty` is the set of dirty array names, and
`dirtyMin`/`dirtyMax` are the two sets `dirtyRange[name]`, whose min/max the
`bind` upload reads as the dirty element range. -/
structure VAState where
  arraysR : Nat → Nat → Int
  dirty : Finset Nat
  dirtyMin : Nat → Finset Nat
  dirtyMax : Nat → Finset Nat

/-- One iteration of the single-value write loop:
`array[pos*itemSize+offset] = val`. -/
def writeVal (arrayName itemSize offset : Nat) (val : Int)
    (f : Nat → Nat → Int) (pos : Nat) : Nat → Nat → Int :=
  fun a i => if a = arrayName ∧ i = pos * itemSize + offset then val else f a i

/-- One iteration of the slice write loop:
`array[pos*itemSize+offset : pos*itemSize+itemLenPlusOffset] = val`. -/
def writeSlice (arrayName itemSize offset itemLen : Nat) (val : Nat → Int)
    (f : Nat → Nat → Int) (pos : Nat) : Nat → Nat → Int :=
  fun a i =>
    if a = arrayName ∧ pos * itemSize + offset ≤ i ∧
        i < pos * itemSize + (itemLen + offset)
    then val (i - (pos * itemSize + offset)) else f a i

/-- The setter made by `makeValSetterDyn`: records `slots[0]`'s element in
the dirty-min set and `slots[-1]`'s in the dirty-max set, marks the array
name dirty, and writes `val` at each slot's element.  An empty slot list
raises `IndexError` at `slots[0]` before any mutation. -/
def setValDyn (arrayName itemSize offset : Nat) (slots : List Nat)
    (val : Int) (va : VAState) : Option VAState :=
  match slots with
  | [] => none
  | s0 :: rest =>
    let last := (s0 :: rest).getLast (List.cons_ne_nil s0 rest)
    some
      { arraysR :=
          (s0 :: rest).foldl (writeVal arrayName itemSize offset val) va.arraysR,
        dirty := va.dirty ∪ {arrayName},
        dirtyMin := fun a =>
          if a = arrayName then va.dirtyMin a ∪ {s0 * itemSize + offset}
          else va.dirtyMin a,
        dirtyMax := fun a =>
          if a = arrayName then va.dirtyMax a ∪ {last * itemSize + offset}
          else va.dirtyMax a }

/-- The setter made by `makeSetterDyn`: as `setValDyn`, but each slot
receives the `itemLen`-element tuple `val`, and the dirty-max entry is
`slots[-1]*itemSize + itemLen + offset`. -/
def setTupleDyn (arrayName itemSize itemLen offset : Nat) (slots : List Nat)
    (val : Nat → Int) (va : VAState) : Option VAState :=
  match slots with
  | [] => none
  | s0 :: rest =>
    let last := (s0 :: rest).getLast (List.cons_ne_nil s0 rest)
    some
      { arraysR :=
          (s0 :: rest).foldl
            (writeSlice arrayName itemSize offset itemLen val) va.arraysR,
        dirty := va.dirty ∪ {arrayName},
        dirtyMin := fun a =>
          if a = arrayName then va.dirtyMin a ∪ {s0 * itemSize + offset}
          else va.dirtyMin a,
        dirtyMax := fun a =>
          if a = arrayName then
            va.dirtyMax a ∪ {last * itemSize + (itemLen + offset)}
          else va.dirtyMax a }

/-- The setter made by `makeBatchSetterDyn`: writes tuple `vals[x]` at slot
`slots[x]` for the zipped pairs, with the same dirty bookkeeping as
`setTupleDyn`. -/
def setBatchDyn (arrayName itemSize itemLen offset : Nat) (slots : List Nat)
    (vals : List (Nat → Int)) (va : VAState) : Option VAState :=
  match slots with
  | [] => none
  | s0 :: rest =>
    let last := (s0 :: rest).getLast (List.cons_ne_nil s0 rest)
    some
      { arraysR :=
          ((s0 :: rest).zip vals).foldl
            (fun f pv => writeSlice arrayName itemSize offset itemLen pv.2 f pv.1)
            va.arraysR,
        dirty := va.dirty ∪ {arrayName},
        dirtyMin := fun a =>
          if a = arrayName then va.dirtyMin a ∪ {s0 * itemSize + offset}
          else va.dirtyMin a,
        dirtyMax := fun a =>
          if a = arrayName then
            va.dirtyMax a ∪ {last * itemSize + (itemLen + offset)}
          else va.dirtyMax a }

/-- A fresh vertex-array state: all elements zero, nothing dirty. -/
def va0 : VAState := ⟨fun _ _ => 0, ∅, fun _ => ∅, fun _ => ∅⟩

/-- C9 (counterexample): with the unsorted slot list `[1, 0]`
(`itemSize = 1`, `offset = 0`), `setValDyn` writes elements 1 and 0 but
records only `{1}` in the dirty-min set and `{0}` in the dirty-max set: the
recorded dirty range `[1, 0]` covers neither slot 0's element (0 < 1) nor
slot 1's element (1 > 0). -/
theorem c9_counterexample :
    ((setValDyn 0 1 0 [1, 0] 5 va0).map
        (fun v => (v.dirty, v.dirtyMin 0, v.dirtyMax 0)) =
      some ({0}, {1}, {0})) ∧
    ((setValDyn 0 1 0 [1, 0] 5 va0).map
        (fun v => (v.arraysR 0 0, v.arraysR 0 1)) = some (5, 5)) ∧
    (∀ lo ∈ ({1} : Finset Nat), ¬ lo ≤ 0 * 1 + 0) ∧
    (∀ hi ∈ ({0} : Finset Nat), ¬ 1 * 1 + 0 ≤ hi) := by
  decide

/-- C9 (amended): for every dynamic-array setter call with a non-empty slot
list in ascending position order (so that `slots[0]` is a lowest and
`slots[-1]` a highest slot), the written array's name is dirty afterwards,
and the recorded dirty min/max element range covers the element span of
every slot that was written, for each of the three dynamic setters. -/
theorem c9_amended_dyn_setters_cover (arrayName itemSize offset itemLen : Nat)
    (s0 : Nat) (rest : List Nat) (va : VAState) (val : Int) (tval : Nat → Int)
    (bvals : List (Nat → Int))
    (hmin : ∀ s ∈ s0 :: rest, s0 ≤ s)
    (hmax : ∀ s ∈ s0 :: rest,
      s ≤ (s0 :: rest).getLast (List.cons_ne_nil s0 rest)) :
    (∀ v, setValDyn arrayName itemSize offset (s0 :: rest) val va = some v →
      arrayName ∈ v.dirty ∧
      ∀ s ∈ s0 :: rest,
        (∃ lo ∈ v.dirtyMin arrayName, lo ≤ s * itemSize + offset) ∧
        (∃ hi ∈ v.dirtyMax arrayName, s * itemSize + offset ≤ hi)) ∧
    (∀ v, setTupleDyn arrayName itemSize itemLen offset (s0 :: rest) tval va =
        some v →
      arrayName ∈ v.dirty ∧
      ∀ s ∈ s0 :: rest, ∀ j < itemLen,
        (∃ lo ∈ v.dirtyMin arrayName, lo ≤ s * itemSize + offset + j) ∧
        (∃ hi ∈ v.dirtyMax arrayName, s * itemSize + offset + j ≤ hi)) ∧
    (∀ v, setBatchDyn arrayName itemSize itemLen offset (s0 :: rest) bvals va =
        some v →
      arrayName ∈ v.dirty ∧
      ∀ pv ∈ (s0 :: rest).zip bvals, ∀ j < itemLen,
        (∃ lo ∈ v.dirtyMin arrayName, lo ≤ pv.1 * itemSize + offset + j) ∧
        (∃ hi ∈ v.dirtyMax arrayName, pv.1 * itemSize + offset + j ≤ hi)) := by
  set last := (s0 :: rest).getLast (List.cons_ne_nil s0 rest) with hlast
  have hdirty : ∀ (d : Finset Nat), arrayName ∈ d ∪ {arrayName} :=
    fun d => Finset.mem_union_right d (Finset.mem_singleton_self arrayName)
  have hlo : ∀ s ∈ s0 :: rest, ∀ j,
      s0 * itemSize + offset ≤ s * itemSize + offset + j := by
    intro s hs j
    have := Nat.mul_le_mul_right itemSize (hmin s hs)
    omega
  have hhiv : ∀ s ∈ s0 :: rest,
      s * itemSize + offset ≤ last * itemSize + offset := by
    intro s hs
    have := Nat.mul_le_mul_right itemSize (hmax s hs)
    omega
  have hhit : ∀ s ∈ s0 :: rest, ∀ j < itemLen,
      s * itemSize + offset + j ≤ last * itemSize + (itemLen + offset) := by
    intro s hs j hj
    have := Nat.mul_le_mul_right itemSize (hmax s hs)
    omega
  refine ⟨?_, ?_, ?_⟩
  · intro v hv
    rw [setValDyn] at hv
    obtain rfl : _ = v := by injection hv
    refine ⟨hdirty _, ?_⟩
    intro s hs
    constructor
    · exact ⟨s0 * itemSize + offset,
        by simp, by simpa using hlo s hs 0⟩
    · exact ⟨last * itemSize + offset, by simp, hhiv s hs⟩
  · intro v hv
    rw [setTupleDyn] at hv
    obtain rfl : _ = v := by injection hv
    refine ⟨hdirty _, ?_⟩
    intro s hs j hj
    constructor
    · exact ⟨s0 * itemSize + offset, by simp, hlo s hs j⟩
    · exact ⟨last * itemSize + (itemLen + offset), by simp, hhit s hs j hj⟩
  · intro v hv
    rw [setBatchDyn] at hv
    obtain rfl : _ = v := by injection hv
    refine ⟨hdirty _, ?_⟩
    intro pv hpv j hj
    have hmem : pv.1 ∈ s0 :: rest := (List.of_mem_zip hpv).1
    constructor
    · exact ⟨s0 * itemSize + offset, by simp, hlo pv.1 hmem j⟩
    · exact ⟨last * itemSize + (itemLen + offset), by simp,
        hhit pv.1 hmem j hj⟩

/-- C9 witness: slots `[2, 5]` (ascending), `itemSize = 2`, `offset = 1`,
`itemLen = 2`, on a fresh state. -/
theorem c9_amended_witness :
    (∀ s ∈ [2, 5], 2 ≤ s) ∧
    (∀ s ∈ ([2, 5] : List Nat),
      s ≤ ([2, 5] : List Nat).getLast (List.cons_ne_nil 2 [5])) ∧
    (∀ v, setValDyn 0 2 1 (2 :: [5]) 3 va0 = some v →
      0 ∈ v.dirty ∧
      ∀ s ∈ 2 :: [5],
        (∃ lo ∈ v.dirtyMin 0, lo ≤ s * 2 + 1) ∧
        (∃ hi ∈ v.dirtyMax 0, s * 2 + 1 ≤ hi)) :=
  ⟨by decide, by decide,
   (c9_amended_dyn_setters_cover 0 2 1 2 2 [5] va0 3 (fun _ => 4)
     [fun _ => 6, fun _ => 7] (by decide) (by decide)).1⟩

/-! ### Claim C10: the texture-atlas packer (twodspriteinfrastructure.py) -/

/-- The `GL3Rect` namedtuple `(x, y, width, height, area)`.  Coordinates are
Python integers, modelled as `Int`. -/
structure GL3Rect where
  x : Int
  y : Int
  width : Int
  height : Int
  area : Int
deriving DecidableEq, Repr

/-- The best-fit scan of `getBox`: among rectangles strictly wider and
taller than the request, keep the one minimising `rect.area - findSize`
(first encountered wins ties), threading the `(foundRect, bestWastage)`
accumulator. -/
def findBest (findW findH findSize : Int) :
    List GL3Rect → Option GL3Rect × Int → Option GL3Rect × Int
  | [], acc => acc
  | r :: rest, acc =>
    if findW < r.width ∧ findH < r.height ∧ r.area - findSize < acc.2 then
      findBest findW findH findSize rest (some r, r.area - findSize)
    else
      findBest findW findH findSize rest acc

/-- `TextureAtlas2d.getBox(width, height, image, wrapped)`, restricted to the
free-rectangle list it manipulates.  `wrapped` adds 2 to each dimension;
`border` is added to both; the found rectangle is removed and split into the
larger residual box plus the smaller one, degenerate residuals being
dropped; the returned first component is the `redrawData` rectangle stored
as the image's `intCoords` (the float texture coordinates are not modelled —
no claim depends on them).  `none` models the `return None` when nothing
fits. -/
def getBox (width height : Int) (wrapped : Bool) (border size : Int)
    (rects : List GL3Rect) : Option (GL3Rect × List GL3Rect) :=
  let width := if wrapped then width + 2 else width
  let height := if wrapped then height + 2 else height
  let findW := width + border
  let findH := height + border
  let findSize := findW * findH
  match (findBest findW findH findSize rects (none, size * size + 1)).1 with
  | none => none
  | some f =>
    let newX := f.x + findW
    let remX := f.width - findW
    let newY := f.y + findH
    let remY := f.height - findH
    let rects1 := rects.erase f
    let big1 : GL3Rect := ⟨newX, f.y, remX, f.height, remX * f.height⟩
    let big2 : GL3Rect := ⟨f.x, newY, f.width, remY, f.width * remY⟩
    let bs : GL3Rect × GL3Rect :=
      if big2.area < big1.area then
        (big1, ⟨f.x, newY, findW, remY, findW * remY⟩)
      else
        (big2, ⟨newX, f.y, remX, findH, remX * findH⟩)
    let rects2 := if 0 < bs.1.area then rects1 ++ [bs.1] else rects1
    let rects3 := if 0 < bs.2.area then rects2 ++ [bs.2] else rects2
    some (⟨f.x, f.y, findW, findH, findW * findH⟩, rects3)

/-- `TextureAtlas2d.deallocateImage`: append the image's `intCoords`
rectangle back to the free list (no merging). -/
def deallocateImage (img : GL3Rect) (rects : List GL3Rect) : List GL3Rect :=
  rects ++ [img]

/-- Total free area of a rectangle list, as width × height. -/
def sumWH (rects : List GL3Rect) : Int :=
  (rects.map (fun r => r.width * r.height)).sum

theorem sumWH_append (l₁ l₂ : List GL3Rect) :
    sumWH (l₁ ++ l₂) = sumWH l₁ + sumWH l₂ := by
  simp [sumWH]

theorem sumWH_erase {f : GL3Rect} {l : List GL3Rect} (hf : f ∈ l) :
    sumWH (l.erase f) = sumWH l - f.width * f.height := by
  have hperm : l.Perm (f :: l.erase f) := List.perm_cons_erase hf
  have hsum : sumWH l = sumWH (f :: l.erase f) := by
    unfold sumWH
    exact (hperm.map (fun r => r.width * r.height)).sum_eq
  rw [hsum]
  simp only [sumWH, List.map_cons, List.sum_cons]
  omega

theorem findBest_mem {findW findH findSize : Int} :
    ∀ (l : List GL3Rect) (acc : Option GL3Rect × Int) (f : GL3Rect),
      (findBest findW findH findSize l acc).1 = some f →
      acc.1 = some f ∨ (f ∈ l ∧ findW < f.width ∧ findH < f.height) := by
  intro l
  induction l with
  | nil => intro acc f h; exact Or.inl h
  | cons r rest ih =>
    intro acc f h
    rw [findBest] at h
    by_cases hr : findW < r.width ∧ findH < r.height ∧ r.area - findSize < acc.2
    · rw [if_pos hr] at h
      rcases ih _ f h with h' | h'
      · obtain rfl : r = f := by injection h'
        exact Or.inr ⟨List.mem_cons_self r rest, hr.1, hr.2.1⟩
      · exact Or.inr ⟨List.mem_cons_of_mem r h'.1, h'.2⟩
    · rw [if_neg hr] at h
      rcases ih _ f h with h' | h'
      · exact Or.inl h'
      · exact Or.inr ⟨List.mem_cons_of_mem r h'.1, h'.2⟩

/-- C10: when `getBox(w, h)` succeeds (non-negative request and border),
allocating the box and then immediately deallocating the returned image
leaves the total free area unchanged. -/
theorem c10_getBox_dealloc_area (width height border size : Int)
    (wrapped : Bool) (rects : List GL3Rect) (img : GL3Rect)
    (rects' : List GL3Rect) (hw : 0 ≤ width) (hh : 0 ≤ height)
    (hb : 0 ≤ border)
    (hres : getBox width height wrapped border size rects = some (img, rects')) :
    sumWH (deallocateImage img rects') = sumWH rects := by
  simp only [getBox] at hres
  set w1 : Int := if wrapped then width + 2 else width with hw1
  set h1 : Int := if wrapped then height + 2 else height with hh1
  have hw1n : 0 ≤ w1 := by
    rw [hw1]
    split <;> omega
  have hh1n : 0 ≤ h1 := by
    rw [hh1]
    split <;> omega
  set fW : Int := w1 + border with hfW
  set fH : Int := h1 + border with hfH
  have hfWn : 0 ≤ fW := by omega
  have hfHn : 0 ≤ fH := by omega
  cases hfb : (findBest fW fH (fW * fH) rects (none, size * size + 1)).1 with
  | none =>
    rw [hfb] at hres
    simp at hres
  | some f =>
    rw [hfb] at hres
    simp only [Option.some.injEq, Prod.mk.injEq] at hres
    obtain ⟨himg, hrects⟩ := hres
    rcases findBest_mem rects (none, size * size + 1) f hfb with h' | ⟨hfmem, hfw, hfh⟩
    · simp at h'
    have hWpos : 0 < f.width := by omega
    have hHpos : 0 < f.height := by omega
    have hremX : 0 < f.width - fW := by omega
    have hremY : 0 < f.height - fH := by omega
    have herase : sumWH (rects.erase f) = sumWH rects - f.width * f.height :=
      sumWH_erase hfmem
    have himgWH : img.width * img.height = fW * fH := by
      rw [← himg]
    rw [deallocateImage, sumWH_append]
    have himgsum : sumWH [img] = fW * fH := by
      simp only [sumWH, List.map_cons, List.map_nil, List.sum_cons,
        List.sum_nil, himgWH]
      omega
    rw [himgsum]
    by_cases hbig : f.width * (f.height - fH) < (f.width - fW) * f.height
    · rw [if_pos hbig] at hrects
      dsimp only [] at hrects
      have hb1pos : 0 < (f.width - fW) * f.height :=
        mul_pos hremX hHpos
      rw [if_pos hb1pos] at hrects
      by_cases hsm : 0 < fW * (f.height - fH)
      · rw [if_pos hsm] at hrects
        rw [← hrects, sumWH_append, sumWH_append, herase]
        simp only [sumWH, List.map_cons, List.map_nil, List.sum_cons,
          List.sum_nil]
        ring
      · rw [if_neg hsm] at hrects
        have hz : fW * (f.height - fH) = 0 := by
          have : 0 ≤ fW * (f.height - fH) :=
            mul_nonneg hfWn (by omega)
          omega
        rw [← hrects, sumWH_append, herase]
        simp only [sumWH, List.map_cons, List.map_nil, List.sum_cons,
          List.sum_nil]
        have hgoal : (f.width - fW) * f.height + fW * fH =
            f.width * f.height - fW * (f.height - fH) := by
          ring
        omega
    · rw [if_neg hbig] at hrects
      dsimp only [] at hrects
      have hb2pos : 0 < f.width * (f.height - fH) :=
        mul_pos hWpos hremY
      rw [if_pos hb2pos] at hrects
      by_cases hsm : 0 < (f.width - fW) * fH
      · rw [if_pos hsm] at hrects
        rw [← hrects, sumWH_append, sumWH_append, herase]
        simp only [sumWH, List.map_cons, List.map_nil, List.sum_cons,
          List.sum_nil]
        ring
      · rw [if_neg hsm] at hrects
        have hz : (f.width - fW) * fH = 0 := by
          have : 0 ≤ (f.width - fW) * fH :=
            mul_nonneg (by omega) hfHn
          omega
        rw [← hrects, sumWH_append, herase]
        simp only [sumWH, List.map_cons, List.map_nil, List.sum_cons,
          List.sum_nil]
        have hgoal : f.width * (f.height - fH) + fW * fH =
            f.width * f.height - (f.width - fW) * fH := by
          ring
        omega

/-- C10 witness: a 100×100 request with border 1 in a fresh 512×512
atlas. -/
theorem c10_witness :
    (0 : Int) ≤ 100 ∧ (0 : Int) ≤ 1 ∧
    getBox 100 100 false 1 512 [⟨0, 0, 512, 512, 262144⟩] =
      some (⟨0, 0, 101, 101, 10201⟩,
        [⟨0, 101, 512, 411, 210432⟩, ⟨101, 0, 411, 101, 41511⟩]) ∧
    sumWH (deallocateImage ⟨0, 0, 101, 101, 10201⟩
        [⟨0, 101, 512, 411, 210432⟩, ⟨101, 0, 411, 101, 41511⟩]) =
      sumWH [⟨0, 0, 512, 512, 262144⟩] :=
  ⟨by decide, by decide, by decide,
   c10_getBox_dealloc_area 100 100 1 512 false [⟨0, 0, 512, 512, 262144⟩]
     ⟨0, 0, 101, 101, 10201⟩
     [⟨0, 101, 512, 411, 210432⟩, ⟨101, 0, 411, 101, 41511⟩]
     (by decide) (by decide) (by decide) (by decide)⟩

end Picaresque
